import Mathlib

/-!
Verification of the Max-Cut SDP-relaxation pipeline from the notebook
`02_sdp_relaxations.ipynb`: graph Laplacian, cut weight as a quadratic form,
hyperplane rounding, and the evaluation metrics printed by
`analyze_and_plot_partition`.  Edge weights and vectors are modelled over ℚ.
-/

namespace MaxCut

/-- A finite weighted undirected graph on vertex set `Fin n`, as produced by
`make_weighted_graph`: a symmetric loop-free adjacency relation together with
symmetric edge weights (attribute `WEIGHT_KEY`). -/
structure Graph (n : ℕ) where
  adj : Fin n → Fin n → Bool
  w : Fin n → Fin n → ℚ
  adj_symm : ∀ i j, adj i j = adj j i
  w_symm : ∀ i j, w i j = w j i
  loopless : ∀ i, adj i i = false

variable {n : ℕ}

/-- The weight convention of the notebook: `w_{i,j} = 0` whenever `{i,j}` is
not an edge. -/
def Graph.wgt (G : Graph n) (i j : Fin n) : ℚ :=
  if G.adj i j then G.w i j else 0

/-- The graph Laplacian as displayed in the notebook: weighted vertex degrees
on the diagonal, negated (zero-extended) edge weights off the diagonal.  This
embeds the matrix `L = nx.laplacian_matrix(G)` used by the code. -/
def laplacian (G : Graph n) (i j : Fin n) : ℚ :=
  if i = j then ∑ k, G.wgt i k else -(G.wgt i j)

/-- The quadratic form `xᵀ L x`. -/
def quadForm (L : Fin n → Fin n → ℚ) (x : Fin n → ℚ) : ℚ :=
  ∑ i, ∑ j, x i * L i j * x j

/-- The pair `{i, j}` has one endpoint in `C = {i | x i = 1}` and the other
in `V \ C`. -/
def crosses (x : Fin n → ℚ) (i j : Fin n) : Prop :=
  (x i = 1 ∧ x j ≠ 1) ∨ (x i ≠ 1 ∧ x j = 1)

instance (x : Fin n → ℚ) (i j : Fin n) : Decidable (crosses x i j) := by
  unfold crosses
  infer_instance

/-- The weight of the cut induced by a sign vector `x`: the total weight of
edges `{i, j}` with one endpoint in `C = {i | x i = 1}` and the other in its
complement. -/
def cutWeight (G : Graph n) (x : Fin n → ℚ) : ℚ :=
  ∑ i, ∑ j, if i < j ∧ G.adj i j ∧ crosses x i j then G.w i j else 0

/-- The quantity `wC = (x.T * L * x / 4).value` computed by
`analyze_and_plot_partition`. -/
def wC (G : Graph n) (x : Fin n → ℚ) : ℚ :=
  quadForm (laplacian G) x / 4

/-- The quantity `wE = L.tr.value / 2` computed by
`analyze_and_plot_partition`. -/
def wE (G : Graph n) : ℚ :=
  (∑ i, laplacian G i i) / 2

/-- The quantity `total_weight = L.tr.value / 2` computed after the solver
call. -/
def total_weight (G : Graph n) : ℚ :=
  (∑ i, laplacian G i i) / 2

/-- The quantity `fraction = objective_value / total_weight`. -/
def fraction (G : Graph n) (objective_value : ℚ) : ℚ :=
  objective_value / total_weight G

/-- The approximation ratio `(wC/wE)/fraction` printed by
`analyze_and_plot_partition`. -/
def approx_ratio (G : Graph n) (x : Fin n → ℚ) (objective_value : ℚ) : ℚ :=
  (wC G x / wE G) / fraction G objective_value

/-- The total edge weight of the graph: the sum of the weights of all
(unordered) edges. -/
def totalEdgeWeight (G : Graph n) : ℚ :=
  ∑ i, ∑ j, if i < j ∧ G.adj i j then G.w i j else 0

lemma Graph.wgt_symm (G : Graph n) (i j : Fin n) : G.wgt i j = G.wgt j i := by
  unfold Graph.wgt
  rw [G.adj_symm, G.w_symm]

lemma Graph.wgt_self (G : Graph n) (i : Fin n) : G.wgt i i = 0 := by
  unfold Graph.wgt
  simp [G.loopless]

lemma laplacian_delta (G : Graph n) (i j : Fin n) :
    laplacian G i j = (if i = j then ∑ k, G.wgt i k else 0) - G.wgt i j := by
  unfold laplacian
  by_cases h : i = j
  · subst h
    simp [G.wgt_self]
  · simp [h]

/-- A symmetric summand with zero diagonal sums over all ordered pairs to
twice its sum over the pairs `i < j`. -/
lemma sum_pair_split (f : Fin n → Fin n → ℚ)
    (hs : ∀ i j, f i j = f j i) (hd : ∀ i, f i i = 0) :
    ∑ i, ∑ j, f i j = 2 * ∑ i, ∑ j, (if i < j then f i j else 0) := by
  have key : ∀ i j : Fin n,
      f i j = (if i < j then f i j else 0) + (if j < i then f i j else 0) := by
    intro i j
    rcases lt_trichotomy i j with h | h | h
    · simp [h, asymm h]
    · subst h
      simp [hd]
    · simp [h, asymm h, not_lt_of_lt h]
  calc
    ∑ i, ∑ j, f i j
        = ∑ i, ∑ j, ((if i < j then f i j else 0) + (if j < i then f i j else 0)) :=
          Finset.sum_congr rfl fun i _ => Finset.sum_congr rfl fun j _ => key i j
    _ = (∑ i, ∑ j, (if i < j then f i j else 0))
          + ∑ i, ∑ j, (if j < i then f i j else 0) := by
          simp [Finset.sum_add_distrib]
    _ = 2 * ∑ i, ∑ j, (if i < j then f i j else 0) := by
          have hswap : ∑ i, ∑ j, (if j < i then f i j else 0)
              = ∑ i, ∑ j, (if i < j then f i j else 0) := by
            rw [Finset.sum_comm]
            exact Finset.sum_congr rfl fun i _ =>
              Finset.sum_congr rfl fun j _ => by rw [hs]
          rw [hswap]
          ring

/-- The Laplacian quadratic form, written purely in terms of the
zero-extended edge weights. -/
lemma quadForm_laplacian (G : Graph n) (x : Fin n → ℚ) :
    quadForm (laplacian G) x = ∑ i, ∑ j, G.wgt i j * (x i ^ 2 - x i * x j) := by
  unfold quadForm
  have step : ∀ i : Fin n,
      ∑ j, x i * laplacian G i j * x j
        = ∑ j, (x i ^ 2 * G.wgt i j - x i * G.wgt i j * x j) := by
    intro i
    have expand : ∀ j : Fin n,
        x i * laplacian G i j * x j
          = (if i = j then x i * (∑ k, G.wgt i k) * x j else 0)
              - x i * G.wgt i j * x j := by
      intro j
      rw [laplacian_delta]
      split_ifs with h
      · ring
      · ring
    rw [Finset.sum_congr rfl fun j _ => expand j, Finset.sum_sub_distrib,
      Finset.sum_ite_eq Finset.univ i fun j => x i * (∑ k, G.wgt i k) * x j,
      Finset.sum_sub_distrib]
    simp only [Finset.mem_univ, if_true]
    congr 1
    rw [Finset.mul_sum, Finset.sum_mul]
    exact Finset.sum_congr rfl fun k _ => by ring
  rw [Finset.sum_congr rfl fun i _ => step i]
  exact Finset.sum_congr rfl fun i _ =>
    Finset.sum_congr rfl fun j _ => by ring

lemma crosses_symm (x : Fin n → ℚ) (i j : Fin n) :
    crosses x i j ↔ crosses x j i := by
  unfold crosses
  tauto

lemma crosses_irrefl (x : Fin n → ℚ) (i : Fin n) : ¬ crosses x i i := by
  unfold crosses
  tauto

/-- For a `±1` vector, each term of the Laplacian quadratic form doubles the
weight of a crossing pair and vanishes otherwise. -/
lemma wgt_term_eq (G : Graph n) (x : Fin n → ℚ) (hx : ∀ i, x i = 1 ∨ x i = -1)
    (i j : Fin n) :
    G.wgt i j * (x i ^ 2 - x i * x j)
      = 2 * (if crosses x i j then G.wgt i j else 0) := by
  rcases hx i with hi | hi <;> rcases hx j with hj | hj <;>
    rw [hi, hj] <;> norm_num [crosses, hi, hj] <;> ring

lemma quadForm_eq_four_cutWeight (G : Graph n) (x : Fin n → ℚ)
    (hx : ∀ i, x i = 1 ∨ x i = -1) :
    quadForm (laplacian G) x = 4 * cutWeight G x := by
  rw [quadForm_laplacian]
  calc
    ∑ i, ∑ j, G.wgt i j * (x i ^ 2 - x i * x j)
        = ∑ i, ∑ j, 2 * (if crosses x i j then G.wgt i j else 0) :=
          Finset.sum_congr rfl fun i _ => Finset.sum_congr rfl fun j _ =>
            wgt_term_eq G x hx i j
    _ = 2 * ∑ i, ∑ j, (if crosses x i j then G.wgt i j else 0) := by
          simp only [← Finset.mul_sum]
    _ = 2 * (2 * ∑ i, ∑ j,
          (if i < j then (if crosses x i j then G.wgt i j else 0) else 0)) := by
          rw [sum_pair_split (fun i j => if crosses x i j then G.wgt i j else 0)
            (fun i j => by
              show (if crosses x i j then G.wgt i j else 0)
                  = (if crosses x j i then G.wgt j i else 0)
              rw [G.wgt_symm]
              exact if_congr (crosses_symm x i j) rfl rfl)
            (fun i => by simp [crosses_irrefl, G.wgt_self])]
    _ = 4 * cutWeight G x := by
          unfold cutWeight
          rw [Finset.sum_congr rfl fun i _ => Finset.sum_congr rfl fun j _ => ?_]
          · ring
          · unfold Graph.wgt
            split_ifs <;> simp_all

/-- **C1.** For every undirected graph with non-negative edge weights and no
self-loops, and every vector `x` with entries in `{-1, +1}`, the quantity
`wC = (1/4)·xᵀLx` computed by `analyze_and_plot_partition` equals the weight
of the cut `C = {i | x i = 1}`. -/
theorem wC_eq_cutWeight (G : Graph n) (_h0 : ∀ i j, 0 ≤ G.w i j)
    (x : Fin n → ℚ) (hx : ∀ i, x i = 1 ∨ x i = -1) :
    wC G x = cutWeight G x := by
  unfold wC
  rw [quadForm_eq_four_cutWeight G x hx]
  ring

/-- The complete graph on `n` vertices with all edge weights `1`; for `n = 3`
this is the unit-weight 3-cycle, for `n = 4` it is K4. -/
def completeGraph (n : ℕ) : Graph n where
  adj i j := decide (i ≠ j)
  w _ _ := 1
  adj_symm := by
    intro i j
    simp [ne_comm]
  w_symm := by
    intro i j
    rfl
  loopless := by
    intro i
    simp

/-- The sign vector on three vertices that separates vertex `2` from the
others. -/
def xTri : Fin 3 → ℚ :=
  fun i => if i = 2 then -1 else 1

lemma xTri_pm (i : Fin 3) : xTri i = 1 ∨ xTri i = -1 := by
  fin_cases i <;> simp [xTri]

theorem wC_eq_cutWeight_witness :
    wC (completeGraph 3) xTri = cutWeight (completeGraph 3) xTri :=
  wC_eq_cutWeight (completeGraph 3) (fun _ _ => by norm_num [completeGraph])
    xTri xTri_pm

lemma Graph.wgt_nonneg (G : Graph n) (h0 : ∀ i j, 0 ≤ G.w i j) (i j : Fin n) :
    0 ≤ G.wgt i j := by
  unfold Graph.wgt
  split_ifs
  · exact h0 i j
  · exact le_refl 0

lemma laplacian_symm (G : Graph n) (i j : Fin n) :
    laplacian G i j = laplacian G j i := by
  unfold laplacian
  by_cases h : i = j
  · subst h
    rfl
  · rw [if_neg h, if_neg fun hh => h hh.symm, G.wgt_symm]

lemma laplacian_row_sum (G : Graph n) (i : Fin n) :
    ∑ j, laplacian G i j = 0 := by
  rw [Finset.sum_congr rfl fun j _ => laplacian_delta G i j,
    Finset.sum_sub_distrib,
    Finset.sum_ite_eq Finset.univ i fun _ => ∑ k, G.wgt i k]
  simp only [Finset.mem_univ, if_true]
  exact sub_self _

/-- The Laplacian quadratic form as half a sum of weighted squared
differences. -/
lemma two_mul_quadForm (G : Graph n) (y : Fin n → ℚ) :
    2 * quadForm (laplacian G) y = ∑ i, ∑ j, G.wgt i j * (y i - y j) ^ 2 := by
  rw [quadForm_laplacian]
  have hswap : ∑ i, ∑ j, G.wgt i j * y j ^ 2 = ∑ i, ∑ j, G.wgt i j * y i ^ 2 := by
    rw [Finset.sum_comm]
    exact Finset.sum_congr rfl fun i _ => Finset.sum_congr rfl fun j _ => by
      rw [G.wgt_symm]
  have split : ∑ i, ∑ j, G.wgt i j * (y i ^ 2 - y i * y j)
      = (∑ i, ∑ j, G.wgt i j * y i ^ 2) - ∑ i, ∑ j, G.wgt i j * (y i * y j) := by
    simp only [mul_sub, Finset.sum_sub_distrib]
  have expand : ∑ i, ∑ j, G.wgt i j * (y i - y j) ^ 2
      = ((∑ i, ∑ j, G.wgt i j * y i ^ 2) + ∑ i, ∑ j, G.wgt i j * y j ^ 2)
          - 2 * ∑ i, ∑ j, G.wgt i j * (y i * y j) := by
    rw [Finset.sum_congr rfl fun i _ => Finset.sum_congr rfl fun j _ =>
      show G.wgt i j * (y i - y j) ^ 2
          = (G.wgt i j * y i ^ 2 + G.wgt i j * y j ^ 2)
              - 2 * (G.wgt i j * (y i * y j)) by ring]
    simp only [Finset.sum_sub_distrib, Finset.sum_add_distrib, ← Finset.mul_sum]
  rw [split, expand, hswap]
  ring

/-- **C4.** For every weighted undirected graph with non-negative edge weights
and no self-loops, the Laplacian is symmetric, every row sums to zero, and the
Laplacian is positive semidefinite. -/
theorem laplacian_invariants (G : Graph n) (h0 : ∀ i j, 0 ≤ G.w i j) :
    (∀ i j, laplacian G i j = laplacian G j i)
    ∧ (∀ i, ∑ j, laplacian G i j = 0)
    ∧ (∀ y : Fin n → ℚ, 0 ≤ quadForm (laplacian G) y) := by
  refine ⟨laplacian_symm G, laplacian_row_sum G, fun y => ?_⟩
  have hsum : 0 ≤ ∑ i, ∑ j, G.wgt i j * (y i - y j) ^ 2 :=
    Finset.sum_nonneg fun i _ => Finset.sum_nonneg fun j _ =>
      mul_nonneg (G.wgt_nonneg h0 i j) (sq_nonneg _)
  have h2 := two_mul_quadForm G y
  linarith

theorem laplacian_invariants_witness :
    (∀ i j, laplacian (completeGraph 3) i j = laplacian (completeGraph 3) j i)
    ∧ (∀ i, ∑ j, laplacian (completeGraph 3) i j = 0)
    ∧ (∀ y : Fin 3 → ℚ, 0 ≤ quadForm (laplacian (completeGraph 3)) y) :=
  laplacian_invariants (completeGraph 3) fun _ _ => by norm_num [completeGraph]

/-- **C6.** The total edge weight equals `Tr(L)/2`, the value computed as
`total_weight` and `wE`; the Laplacian diagonal counts each edge weight
exactly twice. -/
theorem totalEdgeWeight_eq_half_trace (G : Graph n) :
    totalEdgeWeight G = total_weight G
    ∧ (∑ i, laplacian G i i) = 2 * totalEdgeWeight G := by
  have htr : ∑ i, laplacian G i i = 2 * totalEdgeWeight G := by
    have hdiag : ∀ i : Fin n, laplacian G i i = ∑ k, G.wgt i k := by
      intro i
      unfold laplacian
      rw [if_pos rfl]
    rw [Finset.sum_congr rfl fun i _ => hdiag i,
      sum_pair_split (fun i j => G.wgt i j) G.wgt_symm G.wgt_self]
    unfold totalEdgeWeight
    congr 1
    refine Finset.sum_congr rfl fun i _ => Finset.sum_congr rfl fun j _ => ?_
    show (if i < j then G.wgt i j else 0) = _
    unfold Graph.wgt
    split_ifs <;> simp_all
  refine ⟨?_, htr⟩
  unfold total_weight
  rw [htr]
  ring

lemma wE_eq_total_weight (G : Graph n) : wE G = total_weight G := rfl

/-- **C5.** The ratio `(wC/wE)/fraction` printed by
`analyze_and_plot_partition` equals the specified ratio
`w(C) / objective_value` whenever the total edge weight is positive and the
solver objective is nonzero. -/
theorem approx_ratio_eq (G : Graph n) (x : Fin n → ℚ) (objective_value : ℚ)
    (hW : 0 < total_weight G) (_hobj : objective_value ≠ 0) :
    approx_ratio G x objective_value = wC G x / objective_value := by
  have hW' : total_weight G ≠ 0 := ne_of_gt hW
  have hE : wE G ≠ 0 := by
    rw [wE_eq_total_weight]
    exact hW'
  unfold approx_ratio fraction
  rw [wE_eq_total_weight]
  rw [div_div_div_cancel_right₀]
  exact hW'

/-- Modelled from the spec: the rounding step of Task 2.7 (computing
`x = np.sign(T @ v)`) is a blanked-out TODO cell in the notebook, so the sign
function is taken from the spec, which resolves `sign(0)` to `+1` by a fixed
tie-break. -/
def signTieBreak (t : ℚ) : ℚ :=
  if 0 < t then 1 else if t < 0 then -1 else 1

/-- Modelled from the spec: hyperplane rounding, `x = sign(T·v)` with the
tie-break above; `(T·v) i = ∑ j, T i j * v j`. -/
def roundPartition (T : Fin n → Fin n → ℚ) (v : Fin n → ℚ) (i : Fin n) : ℚ :=
  signTieBreak (∑ j, T i j * v j)

/-- **C2.** Every entry of the rounding output `x = sign(T·v)` is exactly
`+1` or `-1`; no entry is `0`, and every entry has absolute value `1`, so the
assertion `np.allclose(np.abs(x), 1)` of `analyze_and_plot_partition` holds on
rounding output. -/
theorem roundPartition_pm (T : Fin n → Fin n → ℚ) (v : Fin n → ℚ) :
    ∀ i, (roundPartition T v i = 1 ∨ roundPartition T v i = -1)
      ∧ roundPartition T v i ≠ 0 ∧ |roundPartition T v i| = 1 := by
  intro i
  unfold roundPartition signTieBreak
  split_ifs <;> norm_num

/-- Modelled from the spec: the repeated-rounding optimization (draw multiple
independent `v`, keep the `x` achieving the largest cut weight) is described
in the spec but left to manually re-running the notebook cell, so the best-of
procedure is embedded from the spec's words.  `bestCutWeight G trial k` is the
largest cut weight among trials `0, …, k`. -/
def bestCutWeight (G : Graph n) (trial : ℕ → Fin n → ℚ) : ℕ → ℚ
  | 0 => cutWeight G (trial 0)
  | k + 1 => max (bestCutWeight G trial k) (cutWeight G (trial (k + 1)))

/-- **C7.** The best-of-k repeated-rounding cut weight is non-decreasing in
the number of trials. -/
theorem bestCutWeight_mono (G : Graph n) (trial : ℕ → Fin n → ℚ) (k : ℕ) :
    bestCutWeight G trial k ≤ bestCutWeight G trial (k + 1) :=
  le_max_left _ _

/-- The spec's entrywise reference definition of the Laplacian (§4.1):
`L[i][i]` is the sum of weights of edges incident to `i`, and for `i ≠ j`,
`L[i][j]` is `-weight(i,j)` if the edge exists and `0` otherwise. -/
def laplacian_spec (G : Graph n) (i j : Fin n) : ℚ :=
  if i = j then ∑ k ∈ Finset.univ.filter (fun k => G.adj i k = true), G.w i k
  else if G.adj i j then -(G.w i j) else 0

/-- **C3.** The Laplacian constructed for the program agrees entrywise with
the spec's reference definition. -/
theorem laplacian_matches_spec (G : Graph n) :
    ∀ i j, laplacian G i j = laplacian_spec G i j := by
  intro i j
  unfold laplacian laplacian_spec
  by_cases h : i = j
  · rw [if_pos h, if_pos h, Finset.sum_filter]
    exact Finset.sum_congr rfl fun k _ => rfl
  · rw [if_neg h, if_neg h]
    unfold Graph.wgt
    split_ifs <;> simp

/-- The selection test of `edge_data`: an edge `(u, v)` is reported exactly
when `x is None or (x[u]*x[v] > 0) ^ only_cut`. -/
def edge_data_selects (x? : Option (Fin n → ℚ)) (only_cut : Bool)
    (u v : Fin n) : Bool :=
  match x? with
  | none => true
  | some x => Bool.xor (decide (0 < x u * x v)) only_cut

/-- **C10.** For a partition vector with all entries nonzero, `edge_data`
classifies each edge of `G` into exactly one of the calls with
`only_cut=True` and `only_cut=False`: cut iff `x[u]·x[v] < 0`, uncut iff
`x[u]·x[v] > 0`. -/
theorem edge_data_classification (G : Graph n) (x : Fin n → ℚ) (u v : Fin n)
    (_hedge : G.adj u v = true) (hx : ∀ i, x i ≠ 0) :
    (edge_data_selects (some x) true u v = true ↔ x u * x v < 0)
    ∧ (edge_data_selects (some x) false u v = true ↔ 0 < x u * x v)
    ∧ Bool.xor (edge_data_selects (some x) true u v)
        (edge_data_selects (some x) false u v) = true := by
  have hne : x u * x v ≠ 0 := mul_ne_zero (hx u) (hx v)
  unfold edge_data_selects
  rcases lt_trichotomy (x u * x v) 0 with h | h | h
  · simp [h, not_lt_of_lt h]
  · exact absurd h hne
  · simp [h, not_lt_of_lt h]

theorem edge_data_classification_witness :
    (edge_data_selects (some xTri) true 0 2 = true ↔ xTri 0 * xTri 2 < 0)
    ∧ (edge_data_selects (some xTri) false 0 2 = true ↔ 0 < xTri 0 * xTri 2)
    ∧ Bool.xor (edge_data_selects (some xTri) true 0 2)
        (edge_data_selects (some xTri) false 0 2) = true :=
  edge_data_classification (completeGraph 3) xTri 0 2 (by rfl)
    fun i => by fin_cases i <;> simp [xTri]

/-- Feasibility for the SDP relaxation (problem (2) of the notebook): `X` is
symmetric, has unit diagonal, and is positive semidefinite. -/
def RelaxFeasible (X : Fin n → Fin n → ℚ) : Prop :=
  (∀ i j, X i j = X j i) ∧ (∀ i, X i i = 1) ∧ ∀ y : Fin n → ℚ, 0 ≤ quadForm X y

/-- The relaxation objective `(1/4)·⟨L, X⟩`. -/
def relaxObj (G : Graph n) (X : Fin n → Fin n → ℚ) : ℚ :=
  (∑ i, ∑ j, laplacian G i j * X i j) / 4

/-- The rank-one matrix `x xᵀ`. -/
def outer (x : Fin n → ℚ) : Fin n → Fin n → ℚ :=
  fun i j => x i * x j

lemma quadForm_outer (x y : Fin n → ℚ) :
    quadForm (outer x) y = (∑ i, x i * y i) ^ 2 := by
  unfold quadForm outer
  calc
    ∑ i, ∑ j, y i * (x i * x j) * y j
        = ∑ i, (y i * x i) * ∑ j, x j * y j := by
          refine Finset.sum_congr rfl fun i _ => ?_
          rw [Finset.mul_sum]
          exact Finset.sum_congr rfl fun j _ => by ring
    _ = (∑ i, y i * x i) * ∑ j, x j * y j := by rw [Finset.sum_mul]
    _ = (∑ i, x i * y i) ^ 2 := by
          rw [Finset.sum_congr rfl fun i (_ : i ∈ Finset.univ) =>
            mul_comm (y i) (x i)]
          ring

lemma outer_feasible (x : Fin n → ℚ) (hx : ∀ i, x i = 1 ∨ x i = -1) :
    RelaxFeasible (outer x) := by
  refine ⟨fun i j => by unfold outer; ring, fun i => ?_, fun y => ?_⟩
  · unfold outer
    rcases hx i with h | h <;> rw [h] <;> norm_num
  · rw [quadForm_outer]
    exact sq_nonneg _

lemma relaxObj_outer (G : Graph n) (x : Fin n → ℚ) :
    relaxObj G (outer x) = wC G x := by
  unfold relaxObj wC quadForm outer
  congr 1
  exact Finset.sum_congr rfl fun i _ => Finset.sum_congr rfl fun j _ => by ring

/-- Every = cut vector is a feasible point of the relaxation, so an optimal
relaxed solution is at least as good as any cut. -/
lemma relax_lower (G : Graph n) (x : Fin n → ℚ) (hx : ∀ i, x i = 1 ∨ x i = -1)
    (X : Fin n → Fin n → ℚ) (_hF : RelaxFeasible X)
    (hO : ∀ Y, RelaxFeasible Y → relaxObj G Y ≤ relaxObj G X) :
    wC G x ≤ relaxObj G X := by
  have h := hO (outer x) (outer_feasible x hx)
  rwa [relaxObj_outer] at h

lemma lap3 (i j : Fin 3) :
    laplacian (completeGraph 3) i j = if i = j then 2 else -1 := by
  fin_cases i <;> fin_cases j <;>
    simp [laplacian, completeGraph, Graph.wgt, Fin.sum_univ_three] <;> norm_num

lemma lap4 (i j : Fin 4) :
    laplacian (completeGraph 4) i j = if i = j then 3 else -1 := by
  fin_cases i <;> fin_cases j <;>
    simp [laplacian, completeGraph, Graph.wgt, Fin.sum_univ_four] <;> norm_num

lemma wC3_bound (x : Fin 3 → ℚ) (hx : ∀ i, x i = 1 ∨ x i = -1) :
    wC (completeGraph 3) x ≤ 2 := by
  unfold wC quadForm
  rcases hx 0 with h0 | h0 <;> rcases hx 1 with h1 | h1 <;>
    rcases hx 2 with h2 | h2 <;>
    simp [Fin.sum_univ_three, lap3, h0, h1, h2] <;> norm_num

lemma wC3_xTri : wC (completeGraph 3) xTri = 2 := by
  unfold wC quadForm
  simp [Fin.sum_univ_three, lap3, xTri]
  norm_num

/-- The 2-2 partition of the four vertices of K4. -/
def xK4 : Fin 4 → ℚ :=
  fun i => if i = 0 ∨ i = 1 then 1 else -1

lemma xK4_pm (i : Fin 4) : xK4 i = 1 ∨ xK4 i = -1 := by
  fin_cases i <;> simp [xK4]

lemma wC4_bound (x : Fin 4 → ℚ) (hx : ∀ i, x i = 1 ∨ x i = -1) :
    wC (completeGraph 4) x ≤ 4 := by
  unfold wC quadForm
  rcases hx 0 with h0 | h0 <;> rcases hx 1 with h1 | h1 <;>
    rcases hx 2 with h2 | h2 <;> rcases hx 3 with h3 | h3 <;>
    simp [Fin.sum_univ_four, lap4, h0, h1, h2, h3] <;> norm_num

lemma wC4_xK4 : wC (completeGraph 4) xK4 = 4 := by
  unfold wC quadForm
  simp [Fin.sum_univ_four, lap4, xK4]
  norm_num

/-- **C8.** The unit-weight 3-cycle has max-cut value `2` and K4 has max-cut
value `4` (achieved by a 2-2 partition); every `x xᵀ` with `x ∈ {-1,+1}ⁿ` is
feasible for the relaxation, so any optimal relaxed solution attains an
objective value of at least these optima. -/
theorem small_instance_optima :
    ((∀ x : Fin 3 → ℚ, (∀ i, x i = 1 ∨ x i = -1) → wC (completeGraph 3) x ≤ 2)
      ∧ (∀ i, xTri i = 1 ∨ xTri i = -1) ∧ wC (completeGraph 3) xTri = 2)
    ∧ ((∀ x : Fin 4 → ℚ, (∀ i, x i = 1 ∨ x i = -1) → wC (completeGraph 4) x ≤ 4)
      ∧ (∀ i, xK4 i = 1 ∨ xK4 i = -1) ∧ wC (completeGraph 4) xK4 = 4)
    ∧ (∀ (m : ℕ) (x : Fin m → ℚ),
        (∀ i, x i = 1 ∨ x i = -1) → RelaxFeasible (outer x))
    ∧ (∀ X : Fin 3 → Fin 3 → ℚ, RelaxFeasible X →
        (∀ Y, RelaxFeasible Y →
          relaxObj (completeGraph 3) Y ≤ relaxObj (completeGraph 3) X) →
        2 ≤ relaxObj (completeGraph 3) X)
    ∧ (∀ X : Fin 4 → Fin 4 → ℚ, RelaxFeasible X →
        (∀ Y, RelaxFeasible Y →
          relaxObj (completeGraph 4) Y ≤ relaxObj (completeGraph 4) X) →
        4 ≤ relaxObj (completeGraph 4) X) := by
  refine ⟨⟨wC3_bound, xTri_pm, wC3_xTri⟩, ⟨wC4_bound, xK4_pm, wC4_xK4⟩,
    fun m x hx => outer_feasible x hx, fun X hF hO => ?_, fun X hF hO => ?_⟩
  · have h := relax_lower (completeGraph 3) xTri xTri_pm X hF hO
    rwa [wC3_xTri] at h
  · have h := relax_lower (completeGraph 4) xK4 xK4_pm X hF hO
    rwa [wC4_xK4] at h

lemma total_weight3 : total_weight (completeGraph 3) = 3 := by
  unfold total_weight
  simp [Fin.sum_univ_three, lap3]

theorem approx_ratio_eq_witness :
    approx_ratio (completeGraph 3) xTri 2 = wC (completeGraph 3) xTri / 2 :=
  approx_ratio_eq (completeGraph 3) xTri 2
    (by rw [total_weight3]; norm_num) (by norm_num)

end MaxCut
